import Mathlib

/-!
Shallow embedding of the parallel old-gen card-table scavenge engine
(`psCardTable.cpp`): the card primitives, the dirty/clean scanners, the
single-range object scanner, the large-array scanner, the per-stripe driver
body and the verification helpers, together with theorems settling the
stated properties.

Addresses are `HeapWord` indices (`Nat`); a card is identified by its index
`addr / cardSize` in the card table, which is modelled as a total function
`Nat → CardValue`.
-/

/-- Modelled from the spec: the closed card-value domain
`{clean, dirty, newgen, verify}` (the `CardValue` byte constants declared in
the card-table headers, which are not part of this source file).
`newgen` is the `youngergen_card` marker. -/
inductive CardValue where
  | clean
  | dirty
  | newgen
  | verify
deriving DecidableEq, Repr

/-- Heap geometry consumed by the engine: the card size in words, the
object-start oracle (`ObjectStartArray::object_start`), the per-object
self-reported size (`oopDesc::size`, meaningful on object starts) and the
external large-object-array classifier `is_large_obj_array`. -/
structure Heap where
  cardSize : Nat
  objStart : Nat → Nat
  objSize : Nat → Nat
  isLargeArr : Nat → Bool

/-- Card index of the card containing address `a` (`byte_for`). -/
def cardOf (h : Heap) (a : Nat) : Nat := a / h.cardSize

/-- First word address of card `c` (`addr_for`). -/
def addrFor (h : Heap) (c : Nat) : Nat := c * h.cardSize

/-- Alignment predicate `is_card_aligned`. -/
def isCardAligned (h : Heap) (a : Nat) : Prop := a % h.cardSize = 0

instance (h : Heap) (a : Nat) : Decidable (isCardAligned h a) := by
  unfold isCardAligned; infer_instance

/-- Round `a` up to a multiple of `n` (`align_up`). -/
def alignUp (a n : Nat) : Nat := ((a + n - 1) / n) * n

/-- End address of the object covering address `a`, as resolved through the
start array. -/
def objEndOf (h : Heap) (a : Nat) : Nat :=
  h.objStart a + h.objSize (h.objStart a)

/-- Consistency of the object-start oracle with a parseable heap: starts lie
at or below their queries, sizes are positive, every address is covered by
its resolved object, and all addresses inside a resolved object's extent
resolve to the same start. -/
structure HeapWF (h : Heap) : Prop where
  cs_pos : 0 < h.cardSize
  start_le : ∀ a, h.objStart a ≤ a
  size_pos : ∀ a, 0 < h.objSize a
  covers : ∀ a, a < objEndOf h a
  start_idem : ∀ a b, h.objStart a ≤ b → b < objEndOf h a →
    h.objStart b = h.objStart a

theorem HeapWF.objStart_self {h : Heap} (wf : HeapWF h) (a : Nat) :
    h.objStart (h.objStart a) = h.objStart a := by
  have hcov : h.objStart a < objEndOf h a :=
    Nat.lt_of_lt_of_le (Nat.lt_add_of_pos_right (wf.size_pos _)) (Nat.le_refl _)
  exact wf.start_idem a (h.objStart a) (Nat.le_refl _) hcov

theorem HeapWF.no_start_inside {h : Heap} (wf : HeapWF h) {a b : Nat}
    (ha : h.objStart a = a) (h1 : a < b) (h2 : b < a + h.objSize a) :
    h.objStart b = a := by
  have := wf.start_idem a b (by omega) (by unfold objEndOf; rw [ha]; omega)
  rwa [ha] at this

theorem HeapWF.next_start {h : Heap} (wf : HeapWF h) {a : Nat}
    (ha : h.objStart a = a) :
    h.objStart (a + h.objSize a) = a + h.objSize a := by
  set b := a + h.objSize a with hb
  have hle : h.objStart b ≤ b := wf.start_le b
  rcases Nat.lt_or_ge (h.objStart b) b with hlt | hge
  · exfalso
    rcases Nat.lt_or_ge (h.objStart b) a with hlt2 | hge2
    · -- the resolved start would lie strictly below `a` yet cover `a`
      have hcovb : b < objEndOf h b := wf.covers b
      have hmem : h.objStart b ≤ a ∧ a < objEndOf h b := by
        constructor
        · omega
        · have : a < b := by have := wf.size_pos a; omega
          omega
      have := wf.start_idem b a hmem.1 hmem.2
      rw [ha] at this
      omega
    · -- the resolved start would be an object start strictly inside `a`'s extent
      rcases Nat.eq_or_lt_of_le hge2 with heq | hlt2
      · have hcovb : b < objEndOf h b := wf.covers b
        unfold objEndOf at hcovb
        rw [← heq] at hcovb
        omega
      · have hself : h.objStart (h.objStart b) = h.objStart b := wf.objStart_self b
        have := wf.no_start_inside ha hlt2 (by omega)
        omega
  · omega

/-- Card-table range clear loop: `n` iterations of `*i_card = clean_card`
starting at card `s` (the body of `PSCardTable::clear_cards`). -/
def clearLoop (cards : Nat → CardValue) : Nat → Nat → (Nat → CardValue)
  | _, 0 => cards
  | s, n + 1 => clearLoop (Function.update cards s CardValue.clean) (s + 1) n

/-- `PSCardTable::clear_cards(start, end)`: write `clean` to every card in
`[start, end)`. -/
def clear_cards (cards : Nat → CardValue) (s e : Nat) : Nat → CardValue :=
  clearLoop cards s (e - s)

theorem clearLoop_eq (n : Nat) :
    ∀ (cards : Nat → CardValue) (s c : Nat),
    clearLoop cards s n c =
      if s ≤ c ∧ c < s + n then CardValue.clean else cards c := by
  induction n with
  | zero =>
    intro cards s c
    rw [clearLoop, if_neg (by omega)]
  | succ n ih =>
    intro cards s c
    rw [clearLoop, ih]
    by_cases hc : s + 1 ≤ c ∧ c < s + 1 + n
    · rw [if_pos hc, if_pos (by omega)]
    · rw [if_neg hc]
      by_cases hc2 : s ≤ c ∧ c < s + (n + 1)
      · have : c = s := by omega
        subst this
        rw [if_pos hc2, Function.update_same]
      · rw [if_neg hc2, Function.update_noteq (by omega)]

theorem clear_cards_eq (cards : Nat → CardValue) (s e c : Nat) :
    clear_cards cards s e c =
      if s ≤ c ∧ c < e then CardValue.clean else cards c := by
  unfold clear_cards
  rw [clearLoop_eq]
  by_cases hse : s ≤ e
  · have : s + (e - s) = e := by omega
    rw [this]
  · rw [if_neg (by omega), if_neg (by omega)]

/-- C10: `clear_cards(start, end)` writes `clean` to exactly the cards in
`[start, end)` and leaves every card outside `[start, end)` unchanged; in
particular an empty or inverted range leaves the card table unchanged. -/
theorem clear_cards_exact_range (cards : Nat → CardValue) (s e c : Nat) :
    clear_cards cards s e c =
      if s ≤ c ∧ c < e then CardValue.clean else cards c :=
  clear_cards_eq cards s e c

/-- Card-state query `PSCardTable::addr_is_marked_imprecise`: true on a dirty
or newgen card, false on a clean card (a `verify` card falls through the
debug assert to `return false`). -/
def addr_is_marked_imprecise (h : Heap) (cards : Nat → CardValue) (a : Nat) : Bool :=
  match cards (cardOf h a) with
  | CardValue.dirty => true
  | CardValue.newgen => true
  | CardValue.clean => false
  | CardValue.verify => false

/-- Card-state query `PSCardTable::addr_is_marked_precise`: true on a newgen
or verify card, false on a clean or dirty card. -/
def addr_is_marked_precise (h : Heap) (cards : Nat → CardValue) (a : Nat) : Bool :=
  match cards (cardOf h a) with
  | CardValue.newgen => true
  | CardValue.verify => true
  | CardValue.clean => false
  | CardValue.dirty => false

/-- C9: a dirty card satisfies the imprecise query but never the precise
one; a clean card satisfies neither; a newgen card satisfies both; a verify
card satisfies the precise query. -/
theorem addr_is_marked_truth_table (h : Heap) (cards : Nat → CardValue) (a : Nat) :
    (cards (cardOf h a) = CardValue.dirty →
      addr_is_marked_imprecise h cards a = true ∧
      addr_is_marked_precise h cards a = false) ∧
    (cards (cardOf h a) = CardValue.clean →
      addr_is_marked_imprecise h cards a = false ∧
      addr_is_marked_precise h cards a = false) ∧
    (cards (cardOf h a) = CardValue.newgen →
      addr_is_marked_imprecise h cards a = true ∧
      addr_is_marked_precise h cards a = true) ∧
    (cards (cardOf h a) = CardValue.verify →
      addr_is_marked_precise h cards a = true) := by
  unfold addr_is_marked_imprecise addr_is_marked_precise
  refine ⟨fun hv => ?_, fun hv => ?_, fun hv => ?_, fun hv => ?_⟩ <;> rw [hv] <;> simp

/-- Concrete card table distinguishing the four card values, for witnesses. -/
def cardsFour : Nat → CardValue := fun c =>
  if c = 0 then CardValue.dirty
  else if c = 1 then CardValue.clean
  else if c = 2 then CardValue.newgen
  else CardValue.verify

/-- Heap whose objects are all single words, card size one, for witnesses. -/
def unitHeap : Heap :=
  { cardSize := 1
    objStart := fun a => a
    objSize := fun _ => 1
    isLargeArr := fun _ => false }

theorem addr_is_marked_truth_table_witness :
    (addr_is_marked_imprecise unitHeap cardsFour 0 = true ∧
      addr_is_marked_precise unitHeap cardsFour 0 = false) ∧
    (addr_is_marked_imprecise unitHeap cardsFour 1 = false ∧
      addr_is_marked_precise unitHeap cardsFour 1 = false) ∧
    (addr_is_marked_imprecise unitHeap cardsFour 2 = true ∧
      addr_is_marked_precise unitHeap cardsFour 2 = true) ∧
    addr_is_marked_precise unitHeap cardsFour 3 = true :=
  ⟨(addr_is_marked_truth_table unitHeap cardsFour 0).1 (by decide),
   (addr_is_marked_truth_table unitHeap cardsFour 1).2.1 (by decide),
   (addr_is_marked_truth_table unitHeap cardsFour 2).2.2.1 (by decide),
   (addr_is_marked_truth_table unitHeap cardsFour 3).2.2.2 (by decide)⟩

/-- Heap template with one distinguished object `[s, e)` and single-word
objects everywhere else, used to build concrete instances. -/
def oneObjHeap (cs s e : Nat) (larg : Nat → Bool) : Heap :=
  { cardSize := cs
    objStart := fun a => if s ≤ a ∧ a < e then s else a
    objSize := fun a => if a = s then e - s else 1
    isLargeArr := larg }

theorem oneObjHeap_wf (cs s e : Nat) (larg : Nat → Bool)
    (hcs : 0 < cs) (hse : s < e) : HeapWF (oneObjHeap cs s e larg) := by
  constructor
  · exact hcs
  · intro a
    unfold oneObjHeap
    dsimp only
    split
    · omega
    · omega
  · intro a
    unfold oneObjHeap
    dsimp only
    split
    · omega
    · omega
  · intro a
    unfold objEndOf oneObjHeap
    dsimp only
    by_cases hin : s ≤ a ∧ a < e
    · rw [if_pos hin, if_pos rfl]
      omega
    · rw [if_neg hin, if_neg (by omega)]
      omega
  · intro a b h1 h2
    unfold objEndOf oneObjHeap at *
    dsimp only at *
    by_cases hin : s ≤ a ∧ a < e
    · rw [if_pos hin] at h1 h2 ⊢
      rw [if_pos rfl] at h2
      rw [if_pos (by omega)]
    · rw [if_neg hin] at h1 h2 ⊢
      rw [if_neg (by omega)] at h2
      have hba : b = a := by omega
      rw [hba, if_neg hin]

/-- Loop of `PSCardTable::find_first_dirty_card` run for `n` cards starting
at card `s`: returns the first card with a non-clean value, else the card
past the scanned range. -/
def findFirstDirtyLoop (cards : Nat → CardValue) : Nat → Nat → Nat
  | s, 0 => s
  | s, n + 1 =>
    if cards s ≠ CardValue.clean then s else findFirstDirtyLoop cards (s + 1) n

/-- `PSCardTable::find_first_dirty_card(start_card, end_card)`. -/
def find_first_dirty_card (cards : Nat → CardValue) (s e : Nat) : Nat :=
  findFirstDirtyLoop cards s (e - s)

/-- Loop of the plain (non-object-aware)
`PSCardTable::find_first_clean_card`. -/
def findFirstCleanLoop (cards : Nat → CardValue) : Nat → Nat → Nat
  | s, 0 => s
  | s, n + 1 =>
    if cards s = CardValue.clean then s else findFirstCleanLoop cards (s + 1) n

/-- Plain `PSCardTable::find_first_clean_card(start_card, end_card)`. -/
def find_first_clean_card (cards : Nat → CardValue) (s e : Nat) : Nat :=
  findFirstCleanLoop cards s (e - s)

theorem findFirstDirtyLoop_spec (cards : Nat → CardValue) (n : Nat) :
    ∀ s, (s ≤ findFirstDirtyLoop cards s n ∧
      findFirstDirtyLoop cards s n ≤ s + n) ∧
      (∀ c, s ≤ c → c < findFirstDirtyLoop cards s n → cards c = CardValue.clean) ∧
      (findFirstDirtyLoop cards s n < s + n →
        cards (findFirstDirtyLoop cards s n) ≠ CardValue.clean) := by
  induction n with
  | zero =>
    intro s
    simp only [findFirstDirtyLoop]
    refine ⟨⟨Nat.le_refl _, by omega⟩, fun c h1 h2 => by omega, fun hlt => by omega⟩
  | succ n ih =>
    intro s
    rw [findFirstDirtyLoop]
    by_cases hs : cards s ≠ CardValue.clean
    · rw [if_pos hs]
      exact ⟨⟨Nat.le_refl _, by omega⟩, fun c h1 h2 => by omega, fun _ => hs⟩
    · rw [if_neg hs]
      push_neg at hs
      obtain ⟨⟨ih1, ih2⟩, ih3, ih4⟩ := ih (s + 1)
      refine ⟨⟨by omega, by omega⟩, fun c h1 h2 => ?_, fun hlt => ih4 (by omega)⟩
      rcases Nat.eq_or_lt_of_le h1 with rfl | hgt
      · exact hs
      · exact ih3 c (by omega) h2

theorem findFirstCleanLoop_spec (cards : Nat → CardValue) (n : Nat) :
    ∀ s, (s ≤ findFirstCleanLoop cards s n ∧
      findFirstCleanLoop cards s n ≤ s + n) ∧
      (∀ c, s ≤ c → c < findFirstCleanLoop cards s n → cards c ≠ CardValue.clean) ∧
      (findFirstCleanLoop cards s n < s + n →
        cards (findFirstCleanLoop cards s n) = CardValue.clean) := by
  induction n with
  | zero =>
    intro s
    simp only [findFirstCleanLoop]
    refine ⟨⟨Nat.le_refl _, by omega⟩, fun c h1 h2 => by omega, fun hlt => by omega⟩
  | succ n ih =>
    intro s
    rw [findFirstCleanLoop]
    by_cases hs : cards s = CardValue.clean
    · rw [if_pos hs]
      exact ⟨⟨Nat.le_refl _, by omega⟩, fun c h1 h2 => by omega, fun _ => hs⟩
    · rw [if_neg hs]
      obtain ⟨⟨ih1, ih2⟩, ih3, ih4⟩ := ih (s + 1)
      refine ⟨⟨by omega, by omega⟩, fun c h1 h2 => ?_, fun hlt => ih4 (by omega)⟩
      rcases Nat.eq_or_lt_of_le h1 with rfl | hgt
      · exact hs
      · exact ih3 c (by omega) h2

theorem find_first_dirty_card_bounds (cards : Nat → CardValue) (s e : Nat)
    (hse : s ≤ e) :
    s ≤ find_first_dirty_card cards s e ∧ find_first_dirty_card cards s e ≤ e := by
  obtain ⟨⟨h1, h2⟩, _, _⟩ := findFirstDirtyLoop_spec cards (e - s) s
  unfold find_first_dirty_card
  omega

/-- Loop of `PSCardTable::verify_all_young_refs_precise_helper`, run for `n`
cards starting at `bot`: asserts each card is `clean` or `verify` (`none`
models the `guarantee` failure) and rewrites `verify` to the newgen marker
`youngergen_card`. -/
def verifyLoop (cards : Nat → CardValue) : Nat → Nat → Option (Nat → CardValue)
  | _, 0 => some cards
  | bot, n + 1 =>
    if cards bot = CardValue.clean then verifyLoop cards (bot + 1) n
    else if cards bot = CardValue.verify then
      verifyLoop (Function.update cards bot CardValue.newgen) (bot + 1) n
    else none

/-- `PSCardTable::verify_all_young_refs_precise_helper` walks the cards from
`byte_for(mr.start())` to `byte_for(mr.end())` inclusive. -/
def verify_all_young_refs_precise_helper (cards : Nat → CardValue)
    (bot top : Nat) : Option (Nat → CardValue) :=
  verifyLoop cards bot (top + 1 - bot)

theorem verifyLoop_spec (n : Nat) :
    ∀ (cards : Nat → CardValue) (bot : Nat) (out : Nat → CardValue),
    verifyLoop cards bot n = some out →
    (∀ c, bot ≤ c → c < bot + n →
      (cards c = CardValue.clean ∨ cards c = CardValue.verify) ∧
      out c = (if cards c = CardValue.verify then CardValue.newgen else cards c)) ∧
    (∀ c, c < bot ∨ bot + n ≤ c → out c = cards c) := by
  induction n with
  | zero =>
    intro cards bot out hout
    simp only [verifyLoop, Option.some_inj] at hout
    subst hout
    exact ⟨fun c h1 h2 => by omega, fun c _ => rfl⟩
  | succ n ih =>
    intro cards bot out hout
    rw [verifyLoop] at hout
    by_cases hcl : cards bot = CardValue.clean
    · rw [if_pos hcl] at hout
      obtain ⟨ih1, ih2⟩ := ih cards (bot + 1) out hout
      refine ⟨fun c h1 h2 => ?_, fun c hc => ih2 c (by omega)⟩
      by_cases heq : c = bot
      · refine ⟨by rw [heq]; exact Or.inl hcl, ?_⟩
        rw [heq, if_neg (by rw [hcl]; exact fun hx => by cases hx),
          ih2 bot (by omega)]
      · exact ih1 c (by omega) (by omega)
    · rw [if_neg hcl] at hout
      by_cases hvf : cards bot = CardValue.verify
      · rw [if_pos hvf] at hout
        obtain ⟨ih1, ih2⟩ := ih _ (bot + 1) out hout
        refine ⟨fun c h1 h2 => ?_, fun c hc => ?_⟩
        · by_cases heq : c = bot
          · refine ⟨by rw [heq]; exact Or.inr hvf, ?_⟩
            rw [heq, if_pos hvf, ih2 bot (by omega), Function.update_same]
          · obtain ⟨g1, g2⟩ := ih1 c (by omega) (by omega)
            rw [Function.update_noteq heq] at g1 g2
            exact ⟨g1, g2⟩
        · rw [ih2 c (by omega), Function.update_noteq (by omega)]
      · rw [if_neg hvf] at hout
        cases hout

/-- C6: if the post-scavenge precise-verification card walk over
`[bot, top]` returns (rather than aborting), then no card in that range
holds `verify` any more: every card that held `verify` has been rewritten to
the newgen marker `youngergen_card`, and every other card in the range held
`clean` and is unchanged. -/
theorem verify_precise_helper_clears_verify (cards : Nat → CardValue)
    (bot top : Nat) (out : Nat → CardValue)
    (hout : verify_all_young_refs_precise_helper cards bot top = some out) :
    ∀ c, bot ≤ c → c ≤ top →
      out c ≠ CardValue.verify ∧
      (cards c = CardValue.verify → out c = CardValue.newgen) ∧
      (cards c ≠ CardValue.verify → cards c = CardValue.clean ∧ out c = cards c) := by
  intro c h1 h2
  obtain ⟨g1, _⟩ := verifyLoop_spec (top + 1 - bot) cards bot out hout
  obtain ⟨gdom, gval⟩ := g1 c h1 (by omega)
  by_cases hvf : cards c = CardValue.verify
  · rw [if_pos hvf] at gval
    refine ⟨?_, fun _ => gval, fun hne => absurd hvf hne⟩
    rw [gval]
    intro hx
    cases hx
  · rw [if_neg hvf] at gval
    have hcl : cards c = CardValue.clean := by
      rcases gdom with hg | hg
      · exact hg
      · exact absurd hg hvf
    refine ⟨?_, fun hv => absurd hv hvf, fun _ => ⟨hcl, gval⟩⟩
    rw [gval, hcl]
    intro hx
    cases hx

/-- Concrete card table for the verification-helper witness. -/
def cardsVerify : Nat → CardValue := fun c =>
  if c = 1 then CardValue.verify else CardValue.clean

theorem verify_precise_helper_clears_verify_witness :
    (verify_all_young_refs_precise_helper cardsVerify 0 2).isSome = true ∧
    ∀ out, verify_all_young_refs_precise_helper cardsVerify 0 2 = some out →
      out 1 ≠ CardValue.verify ∧ out 1 = CardValue.newgen := by
  refine ⟨by decide, fun out hout => ?_⟩
  obtain ⟨g1, g2, _⟩ :=
    verify_precise_helper_clears_verify cardsVerify 0 2 out hout 1 (by omega) (by omega)
  exact ⟨g1, g2 (by decide)⟩

/-- Modelled from the spec: a reference slot inside an object, as seen by the
`CheckForUnmarkedOops` closure — its (word) address and whether the oop
loaded from it points into the young generation (`is_in_reserved`). The
closure machinery (`oop_iterate`) lives outside this source file. -/
structure OopSlot where
  addr : Nat
  young : Bool

/-- `CheckForUnmarkedOops::do_oop_work` folded over an object's slots: the
first young-pointing slot whose card fails `addr_is_marked_imprecise`
(`_unmarked_addr`, never overwritten once set). -/
def firstUnmarkedYoungOop (h : Heap) (cards : Nat → CardValue) :
    List OopSlot → Option Nat
  | [] => none
  | s :: rest =>
    if s.young = true ∧ addr_is_marked_imprecise h cards s.addr = false then
      some s.addr
    else firstUnmarkedYoungOop h cards rest

/-- `CheckForUnmarkedObjects::do_object`: `true` means the `guarantee`
fails (the verifier aborts) — some young-pointing slot is unmarked and the
card of the object's start is unmarked as well. -/
def checkForUnmarkedObject (h : Heap) (cards : Nat → CardValue)
    (objAddr : Nat) (slots : List OopSlot) : Bool :=
  (firstUnmarkedYoungOop h cards slots).isSome &&
    !(addr_is_marked_imprecise h cards objAddr)

theorem firstUnmarkedYoungOop_isSome (h : Heap) (cards : Nat → CardValue)
    (slots : List OopSlot) :
    (firstUnmarkedYoungOop h cards slots).isSome = true ↔
      ∃ s ∈ slots, s.young = true ∧
        addr_is_marked_imprecise h cards s.addr = false := by
  induction slots with
  | nil => simp [firstUnmarkedYoungOop]
  | cons s rest ih =>
    rw [firstUnmarkedYoungOop]
    by_cases hs : s.young = true ∧ addr_is_marked_imprecise h cards s.addr = false
    · rw [if_pos hs]
      simp only [Option.isSome_some, true_iff]
      exact ⟨s, List.mem_cons_self s rest, hs.1, hs.2⟩
    · rw [if_neg hs, ih]
      constructor
      · rintro ⟨t, ht, hy⟩
        exact ⟨t, List.mem_cons_of_mem s ht, hy⟩
      · rintro ⟨t, ht, hy⟩
        rcases List.mem_cons.1 ht with rfl | ht2
        · exact absurd hy hs
        · exact ⟨t, ht2, hy⟩

/-- C7 (amended): the imprecise pre-scavenge verifier aborts on an object
exactly when some young-pointing slot of the object lies on a card that is
neither dirty nor newgen AND the card containing the object's start is also
neither dirty nor newgen. Holding a young reference on a marked card does
not by itself force the object-start card to be marked. -/
theorem imprecise_verifier_abort_iff (h : Heap) (cards : Nat → CardValue)
    (objAddr : Nat) (slots : List OopSlot) :
    checkForUnmarkedObject h cards objAddr slots = true ↔
      (∃ s ∈ slots, s.young = true ∧
        addr_is_marked_imprecise h cards s.addr = false) ∧
      addr_is_marked_imprecise h cards objAddr = false := by
  unfold checkForUnmarkedObject
  rw [Bool.and_eq_true, firstUnmarkedYoungOop_isSome, Bool.not_eq_true']

theorem imprecise_verifier_abort_iff_witness :
    checkForUnmarkedObject unitHeap cardsFour 1 [⟨1, true⟩] = true :=
  (imprecise_verifier_abort_iff unitHeap cardsFour 1 [⟨1, true⟩]).mpr
    ⟨⟨⟨1, true⟩, List.mem_cons_self _ _, by decide, by decide⟩, by decide⟩

/-- C7 counterexample: an object holding a young-generation reference (slot
at address 0, on a dirty card) whose start-address card (card 1) is neither
dirty nor newgen, yet `CheckForUnmarkedObjects::do_object` does NOT abort —
the claim's "asserts that the card of the object's start address is dirty or
newgen for each object that holds any young-gen reference" is false: the
guarantee only fires when some young slot's own card is unmarked. -/
theorem imprecise_verifier_abort_counterexample :
    checkForUnmarkedObject unitHeap cardsFour 1 [⟨0, true⟩] = false ∧
    (⟨0, true⟩ : OopSlot).young = true ∧
    addr_is_marked_imprecise unitHeap cardsFour 1 = false := by
  refine ⟨by decide, by decide, by decide⟩

/-- Promotion-manager events observable from the scavenge engine:
`push_contents`, `push_objArray_contents` (with the element sub-range) and
`drain_stacks_cond_depth`. -/
inductive Event where
  | pushContents (a : Nat)
  | pushObjArray (arr l r : Nat)
  | drain
deriving DecidableEq, Repr

/-- Loop of `PSCardTable::scan_objects_in_range`: starting at `a`, while
`a < hi` push the object at `a` and advance by its self-reported size.
`fuel` bounds the iteration count; `hi - lo` iterations always suffice
because object sizes are positive. -/
def scanLoop (h : Heap) (hi : Nat) : Nat → Nat → List Event
  | 0, _ => []
  | fuel + 1, a =>
    if a < hi then Event.pushContents a :: scanLoop h hi fuel (a + h.objSize a)
    else []

/-- `PSCardTable::scan_objects_in_range(pm, start, end)`: push every object
starting in `[lo, hi)` in address order, then
`pm->drain_stacks_cond_depth()`. -/
def scan_objects_in_range (h : Heap) (lo hi : Nat) : List Event :=
  scanLoop h hi (hi - lo) lo ++ [Event.drain]

/-- Addresses in `[lo, hi)` that are object starts, in increasing order. -/
def objStartsIn (h : Heap) (lo hi : Nat) : List Nat :=
  (List.range' lo (hi - lo)).filter (fun a => h.objStart a == a)

theorem objStartsIn_nil (h : Heap) {lo hi : Nat} (hle : hi ≤ lo) :
    objStartsIn h lo hi = [] := by
  unfold objStartsIn
  have hz : hi - lo = 0 := by omega
  rw [hz]
  rfl

theorem objStartsIn_cons (h : Heap) (wf : HeapWF h) {lo hi : Nat}
    (hlo : h.objStart lo = lo) (hlt : lo < hi) :
    objStartsIn h lo hi = lo :: objStartsIn h (lo + h.objSize lo) hi := by
  have hs1 : 1 ≤ h.objSize lo := wf.size_pos lo
  unfold objStartsIn
  have hn : hi - lo = (hi - lo - 1) + 1 := by omega
  rw [hn, List.range'_succ]
  rw [List.filter_cons_of_pos (by rw [hlo]; exact beq_self_eq_true lo)]
  congr 1
  by_cases hov : hi ≤ lo + h.objSize lo
  · -- the object at `lo` covers everything up to `hi`: no further starts
    have hz : hi - (lo + h.objSize lo) = 0 := by omega
    rw [hz]
    simp only [List.range'_zero, List.filter_nil]
    rw [List.filter_eq_nil_iff]
    intro a ha
    rw [List.mem_range'_1] at ha
    have hne : h.objStart a = lo := wf.no_start_inside hlo (by omega) (by omega)
    simp only [beq_iff_eq]
    omega
  · -- split the tail range at the next object start
    have hsplit :=
      List.range'_append_1 (lo + 1) (h.objSize lo - 1) (hi - (lo + h.objSize lo))
    rw [show lo + 1 + (h.objSize lo - 1) = lo + h.objSize lo from by omega,
      show hi - (lo + h.objSize lo) + (h.objSize lo - 1) = hi - lo - 1 from by
        omega] at hsplit
    rw [← hsplit, List.filter_append]
    have hnil :
        (List.range' (lo + 1) (h.objSize lo - 1)).filter
          (fun a => h.objStart a == a) = [] := by
      rw [List.filter_eq_nil_iff]
      intro a ha
      rw [List.mem_range'_1] at ha
      have hne : h.objStart a = lo := wf.no_start_inside hlo (by omega) (by omega)
      simp only [beq_iff_eq]
      omega
    rw [hnil, List.nil_append]

theorem scanLoop_eq (h : Heap) (wf : HeapWF h) (hi : Nat) :
    ∀ fuel a, hi ≤ a + fuel → h.objStart a = a →
    scanLoop h hi fuel a = (objStartsIn h a hi).map Event.pushContents := by
  intro fuel
  induction fuel with
  | zero =>
    intro a hf ha
    rw [objStartsIn_nil h (by omega)]
    rfl
  | succ fuel ih =>
    intro a hf ha
    rw [scanLoop]
    by_cases hlt : a < hi
    · rw [if_pos hlt, objStartsIn_cons h wf ha hlt, List.map_cons]
      congr 1
      have hs1 : 1 ≤ h.objSize a := wf.size_pos a
      exact ih (a + h.objSize a) (by omega) (wf.next_start ha)
    · rw [if_neg hlt, objStartsIn_nil h (by omega)]
      rfl

/-- C8: for a range `[lo, hi)` whose left end is an object start and with no
object straddling `hi`, `scan_objects_in_range` pushes exactly the objects
whose starts lie in `[lo, hi)`, once each, in increasing address order
advancing by each object's self-reported size, and issues exactly one
`drain_stacks_cond_depth` after the loop. -/
theorem scan_objects_pushes_each_start_once (h : Heap) (wf : HeapWF h)
    (lo hi : Nat) (hlo : h.objStart lo = lo)
    (_hstraddle : ∀ a, lo ≤ a → a < hi → objEndOf h a ≤ hi) :
    scan_objects_in_range h lo hi =
      (objStartsIn h lo hi).map Event.pushContents ++ [Event.drain] := by
  unfold scan_objects_in_range
  rw [scanLoop_eq h wf hi (hi - lo) lo (by omega) hlo]

theorem scan_objects_pushes_each_start_once_witness :
    scan_objects_in_range unitHeap 0 2 =
      (objStartsIn unitHeap 0 2).map Event.pushContents ++ [Event.drain] :=
  scan_objects_pushes_each_start_once unitHeap
    (by
      constructor
      · exact Nat.one_pos
      · intro a; exact Nat.le_refl a
      · intro a; exact Nat.one_pos
      · intro a; unfold objEndOf unitHeap; dsimp only; omega
      · intro a b h1 h2; unfold objEndOf unitHeap at *; dsimp only at *; omega)
    0 2 rfl
    (fun a _ h2 => by unfold objEndOf unitHeap; dsimp only; omega)

theorem unitHeap_wf : HeapWF unitHeap := by
  constructor
  · exact Nat.one_pos
  · intro a; exact Nat.le_refl a
  · intro a; exact Nat.one_pos
  · intro a; unfold objEndOf unitHeap; dsimp only; omega
  · intro a b h1 h2; unfold objEndOf unitHeap at *; dsimp only at *; omega

theorem cardOf_le_iff (h : Heap) (hcs : 0 < h.cardSize) (x i : Nat) :
    cardOf h x ≤ i ↔ x < (i + 1) * h.cardSize := by
  unfold cardOf
  rw [← Nat.lt_succ_iff, Nat.div_lt_iff_lt_mul hcs]

theorem le_cardOf_iff (h : Heap) (hcs : 0 < h.cardSize) (x i : Nat) :
    i ≤ cardOf h x ↔ i * h.cardSize ≤ x := by
  unfold cardOf
  rw [Nat.le_div_iff_mul_le hcs]

/-- Loop of the object-aware `PSCardTable::find_first_clean_card`: advance
past non-clean cards; at a clean card resolve the final object on the
previous (dirty) card via the start array; if that object extends past the
clean card, return the object's last card when it is clean, else restart
after it. `fuel` bounds the iterations; the scanned card strictly increases,
so `endCard` iterations always suffice. -/
def ffccLoop (h : Heap) (cards : Nat → CardValue) (endCard : Nat) :
    Nat → Nat → Nat
  | 0, _ => endCard
  | fuel + 1, i =>
    if i < endCard then
      if cards i = CardValue.clean then
        if cardOf h (objEndOf h (addrFor h i - 1) - 1) ≤ i then i
        else if cards (cardOf h (objEndOf h (addrFor h i - 1) - 1)) =
            CardValue.clean then
          cardOf h (objEndOf h (addrFor h i - 1) - 1)
        else ffccLoop h cards endCard fuel
          (cardOf h (objEndOf h (addrFor h i - 1) - 1) + 1)
      else ffccLoop h cards endCard fuel (i + 1)
    else endCard

/-- Object-aware `PSCardTable::find_first_clean_card(start_array,
start_card, end_card)`; the precondition is that `*start_card` is not
clean, and scanning begins at `start_card + 1`. -/
def find_first_clean_card_obj (h : Heap) (cards : Nat → CardValue)
    (startCard endCard : Nat) : Nat :=
  ffccLoop h cards endCard endCard (startCard + 1)

/-- A clean card at which the object-aware search may stop: the card is
clean and the object covering the last word of the preceding card ends at or
before the end of this card, i.e. no object reaching this card from below
extends past it. -/
def validPast (h : Heap) (cards : Nat → CardValue) (c : Nat) : Prop :=
  cards c = CardValue.clean ∧ objEndOf h (addrFor h c - 1) ≤ addrFor h (c + 1)

/-- Claim-side predicate following C1's words literally: some object whose
start lies on a preceding dirty card extends onto card `c` (its body covers
at least one word of card `c`). -/
def extendsOntoFromDirty (h : Heap) (cards : Nat → CardValue) (c : Nat) : Bool :=
  (List.range (addrFor h c)).any fun a =>
    h.objStart a == a && cards (cardOf h a) == CardValue.dirty &&
      decide (addrFor h c < a + h.objSize a)

/-- Claim-side predicate following C1's words literally: card `c` is clean
and no object whose start lies on a preceding dirty card extends onto it. -/
def specValidCleanOnto (h : Heap) (cards : Nat → CardValue) (c : Nat) : Bool :=
  cards c == CardValue.clean && !(extendsOntoFromDirty h cards c)

/-- First card in `(startCard, endCard)` satisfying `specValidCleanOnto`, or
`endCard` if none — the return value C1 claims for the object-aware
search. -/
def specFirstCleanOnto (h : Heap) (cards : Nat → CardValue)
    (startCard endCard : Nat) : Nat :=
  ((List.range' (startCard + 1) (endCard - (startCard + 1))).find?
    (fun c => specValidCleanOnto h cards c)).getD endCard

/-- Concrete heap for the C1 counterexample: card size 4, one object
occupying words `[2, 6)` (so it starts on card 0 and its body reaches one
word into card 1), single-word objects elsewhere. -/
def hC1 : Heap := oneObjHeap 4 2 6 (fun _ => false)

/-- Card table for the C1 counterexample: card 0 dirty, all others clean. -/
def cardsC1 : Nat → CardValue := fun c =>
  if c = 0 then CardValue.dirty else CardValue.clean

/-- C1 counterexample: with `*start` dirty and an object starting on the
dirty card 0 that extends onto (but not past) the clean card 1, the
object-aware search returns card 1, while the claimed specification — the
first clean card onto which no object from a preceding dirty card extends —
is card `end = 2`. The returned card IS covered by the body of an object
that starts on an earlier dirty card of the range. -/
theorem find_first_clean_card_obj_counterexample :
    find_first_clean_card_obj hC1 cardsC1 0 2 = 1 ∧
    specFirstCleanOnto hC1 cardsC1 0 2 = 2 ∧
    cardsC1 0 ≠ CardValue.clean ∧
    HeapWF hC1 ∧
    (∀ a, a < addrFor hC1 2 → objEndOf hC1 a ≤ addrFor hC1 2) := by
  refine ⟨by decide, by decide, by decide,
    oneObjHeap_wf 4 2 6 _ (by omega) (by omega), ?_⟩
  intro a h2
  unfold objEndOf hC1 oneObjHeap addrFor at *
  dsimp only at *
  split_ifs with g1 g2 g3 <;> omega

theorem ffccLoop_spec (h : Heap) (wf : HeapWF h) (cards : Nat → CardValue)
    (startCard endCard : Nat)
    (hstraddle : ∀ a, addrFor h startCard ≤ a → a < addrFor h endCard →
      objEndOf h a ≤ addrFor h endCard) :
    ∀ fuel i, startCard < i → endCard - i ≤ fuel →
      (∀ c, startCard < c → c < i → ¬ validPast h cards c) →
      ffccLoop h cards endCard fuel i ≤ endCard ∧
      (ffccLoop h cards endCard fuel i < endCard →
        startCard < ffccLoop h cards endCard fuel i ∧
        validPast h cards (ffccLoop h cards endCard fuel i)) ∧
      (∀ c, startCard < c → c < ffccLoop h cards endCard fuel i →
        ¬ validPast h cards c) := by
  have hcs : 0 < h.cardSize := wf.cs_pos
  have haddr : ∀ j : Nat, addrFor h j = j * h.cardSize := fun j => rfl
  intro fuel
  induction fuel with
  | zero =>
    intro i hsi hfi hinv
    rw [ffccLoop]
    exact ⟨Nat.le_refl _, fun hlt => absurd hlt (Nat.lt_irrefl _),
      fun c h1 h2 => hinv c h1 (by omega)⟩
  | succ fuel ih =>
    intro i hsi hfi hinv
    rw [ffccLoop]
    by_cases hie : i < endCard
    case neg =>
      rw [if_neg hie]
      exact ⟨Nat.le_refl _, fun hlt => absurd hlt (Nat.lt_irrefl _),
        fun c h1 h2 => hinv c h1 (by omega)⟩
    case pos =>
    rw [if_pos hie]
    by_cases hcl : cards i = CardValue.clean
    case neg =>
      rw [if_neg hcl]
      refine ih (i + 1) (by omega) (by omega) (fun c h1 h2 => ?_)
      rcases Nat.lt_or_ge c i with hlt | hge
      · exact hinv c h1 hlt
      · have hci : c = i := by omega
        subst hci
        intro hv
        exact hcl hv.1
    case pos =>
    rw [if_pos hcl]
    set A := addrFor h i - 1 with hA
    set E := objEndOf h A with hE
    set F := cardOf h (E - 1) with hF
    have hAdef : A = i * h.cardSize - 1 := hA.trans rfl
    have e2 : (startCard + 1) * h.cardSize = startCard * h.cardSize + h.cardSize :=
      Nat.succ_mul _ _
    have e1 : (startCard + 1) * h.cardSize ≤ i * h.cardSize :=
      Nat.mul_le_mul_right _ (by omega)
    have e6 : (i + 1) * h.cardSize = i * h.cardSize + h.cardSize := Nat.succ_mul _ _
    have e5 : (i + 1) * h.cardSize ≤ endCard * h.cardSize :=
      Nat.mul_le_mul_right _ (by omega)
    have hAlow : startCard * h.cardSize ≤ A := by omega
    have hAhigh : A < endCard * h.cardSize := by omega
    have hEend : E ≤ endCard * h.cardSize := hstraddle A hAlow hAhigh
    have hEpos : A < E := wf.covers A
    have hFle : ∀ j : Nat, F ≤ j ↔ E - 1 < (j + 1) * h.cardSize := fun j => by
      rw [hF]
      exact cardOf_le_iff h hcs (E - 1) j
    have hleF : ∀ j : Nat, j ≤ F ↔ j * h.cardSize ≤ E - 1 := fun j => by
      rw [hF]
      exact le_cardOf_iff h hcs (E - 1) j
    have hFend : F < endCard := by
      rcases Nat.lt_or_ge F endCard with hx | hx
      · exact hx
      · exfalso
        have := (hleF endCard).1 hx
        omega
    by_cases hle : F ≤ i
    case pos =>
      rw [if_pos hle]
      refine ⟨by omega, fun _ => ⟨hsi, hcl, ?_⟩, fun c h1 h2 => hinv c h1 h2⟩
      show E ≤ addrFor h (i + 1)
      rw [haddr]
      have hx := (hFle i).1 hle
      omega
    case neg =>
    rw [if_neg hle]
    have hgt : i < F := by omega
    have hnotv : ∀ c, i ≤ c → c < F → ¬ validPast h cards c := by
      intro c hc1 hc2 hv
      have ec : i * h.cardSize ≤ c * h.cardSize := Nat.mul_le_mul_right _ hc1
      have hobj : h.objStart (addrFor h c - 1) = h.objStart A := by
        apply wf.start_idem A (addrFor h c - 1) ?_ ?_
        · have hsle : h.objStart A ≤ A := wf.start_le A
          show h.objStart A ≤ c * h.cardSize - 1
          omega
        · have hcle := (hleF c).1 (by omega)
          show c * h.cardSize - 1 < E
          omega
      have hEeq : objEndOf h (addrFor h c - 1) = E := by
        unfold objEndOf
        rw [hobj]
        rfl
      have h1x := hv.2
      rw [hEeq, haddr] at h1x
      have h2x := (hleF (c + 1)).1 (by omega)
      omega
    by_cases hclf : cards F = CardValue.clean
    case pos =>
      rw [if_pos hclf]
      refine ⟨by omega, fun _ => ⟨by omega, hclf, ?_⟩, fun c h1 h2 => ?_⟩
      · have ec : i * h.cardSize ≤ F * h.cardSize := Nat.mul_le_mul_right _ (by omega)
        have hobj : h.objStart (addrFor h F - 1) = h.objStart A := by
          apply wf.start_idem A (addrFor h F - 1) ?_ ?_
          · have hsle : h.objStart A ≤ A := wf.start_le A
            show h.objStart A ≤ F * h.cardSize - 1
            omega
          · have hcle := (hleF F).1 (Nat.le_refl F)
            show F * h.cardSize - 1 < E
            omega
        show objEndOf h (addrFor h F - 1) ≤ addrFor h (F + 1)
        have hEeq : objEndOf h (addrFor h F - 1) = E := by
          unfold objEndOf
          rw [hobj]
          rfl
        rw [hEeq, haddr]
        have hx := (hFle F).1 (Nat.le_refl F)
        omega
      · rcases Nat.lt_or_ge c i with hlt | hge
        · exact hinv c h1 hlt
        · exact hnotv c hge h2
    case neg =>
      rw [if_neg hclf]
      refine ih (F + 1) (by omega) (by omega) (fun c h1 h2 => ?_)
      rcases Nat.lt_or_ge c i with hlt | hge
      · exact hinv c h1 hlt
      · rcases Nat.lt_or_ge c F with hltF | hgeF
        · exact hnotv c hge hltF
        · have hcF : c = F := by omega
          subst hcF
          intro hv
          exact hclf hv.1

/-- C1 (amended): given that `*start` is not clean and that no object
overlapping the scanned cards extends past `end`, the object-aware
`find_first_clean_card(start_array, start, end)` returns the FIRST card `c`
in `(start, end)` such that `c` is clean and the object covering the last
word of card `c - 1` does not extend PAST card `c` (equivalently: no object
starting below card `c` extends beyond card `c`'s end), or `end` if no such
card exists. An object from a preceding dirty card may still end ON the
returned card. -/
theorem find_first_clean_card_obj_first_valid (h : Heap) (wf : HeapWF h)
    (cards : Nat → CardValue) (startCard endCard : Nat)
    (_hstart : cards startCard ≠ CardValue.clean)
    (hstraddle : ∀ a, addrFor h startCard ≤ a → a < addrFor h endCard →
      objEndOf h a ≤ addrFor h endCard) :
    find_first_clean_card_obj h cards startCard endCard ≤ endCard ∧
    (find_first_clean_card_obj h cards startCard endCard < endCard →
      startCard < find_first_clean_card_obj h cards startCard endCard ∧
      validPast h cards (find_first_clean_card_obj h cards startCard endCard)) ∧
    (∀ c, startCard < c →
      c < find_first_clean_card_obj h cards startCard endCard →
      ¬ validPast h cards c) := by
  unfold find_first_clean_card_obj
  exact ffccLoop_spec h wf cards startCard endCard hstraddle endCard
    (startCard + 1) (by omega) (by omega)
    (fun c h1 h2 => absurd h1 (by omega))

theorem find_first_clean_card_obj_first_valid_witness :
    find_first_clean_card_obj unitHeap cardsFour 0 2 ≤ 2 ∧
    (find_first_clean_card_obj unitHeap cardsFour 0 2 < 2 →
      0 < find_first_clean_card_obj unitHeap cardsFour 0 2 ∧
      validPast unitHeap cardsFour (find_first_clean_card_obj unitHeap cardsFour 0 2)) :=
  let g := find_first_clean_card_obj_first_valid unitHeap unitHeap_wf cardsFour 0 2
    (by decide)
    (fun a _ h2 => by
      unfold objEndOf unitHeap addrFor at *
      dsimp only at *
      omega)
  ⟨g.1, g.2.1⟩

/-- Worker-visible state: the card table plus the chronological log of
promotion-manager events. -/
structure ScanState where
  cards : Nat → CardValue
  log : List Event

/-- `ObjectStartArray::object_starts_in_range(lo, hi)`: does any object
start in `[lo, hi)`? -/
def objectStartsInRange (h : Heap) (lo hi : Nat) : Bool :=
  (List.range' lo (hi - lo)).any fun a => h.objStart a == a

theorem objectStartsInRange_iff (h : Heap) (lo hi : Nat) (hlh : lo ≤ hi) :
    objectStartsInRange h lo hi = true ↔
      ∃ a, lo ≤ a ∧ a < hi ∧ h.objStart a = a := by
  unfold objectStartsInRange
  rw [List.any_eq_true]
  constructor
  · rintro ⟨a, ha, hp⟩
    rw [List.mem_range'_1] at ha
    rw [beq_iff_eq] at hp
    exact ⟨a, ha.1, by omega, hp⟩
  · rintro ⟨a, h1, h2, h3⟩
    refine ⟨a, ?_, by rw [beq_iff_eq]; exact h3⟩
    rw [List.mem_range'_1]
    omega

/-- Card limits computed by `PSCardTable::scavenge_large_array_contents`. -/
structure ArrLimits where
  iterL : Nat
  iterR : Nat
  clearL : Nat
  clearR : Nat
deriving DecidableEq, Repr

/-- Limit derivation of `scavenge_large_array_contents` (lines 424-448):
start from the stripe's card range, clip the left limits if the array starts
in the stripe (skipping the array's first card entirely when the driver
already cleared it), and clip the right limits if the array ends in the
stripe. -/
def largeArrLimits (h : Heap) (arrAddr arrEndAddr stripeAddr stripeEndAddr : Nat)
    (firstCleared : Bool) : ArrLimits :=
  let iterL := cardOf h stripeAddr
  let iterR := cardOf h (stripeEndAddr - 1) + 1
  let clearL := cardOf h stripeAddr
  let clearR := cardOf h stripeEndAddr
  let iterL := if stripeAddr ≤ arrAddr then
      (if firstCleared then cardOf h arrAddr + 1 else cardOf h arrAddr)
    else iterL
  let clearL := if stripeAddr ≤ arrAddr then
      (if firstCleared then cardOf h arrAddr + 1 else cardOf h (arrAddr - 1) + 1)
    else clearL
  let iterR := if arrEndAddr ≤ stripeEndAddr then cardOf h (arrEndAddr - 1) + 1
    else iterR
  let clearR := if arrEndAddr ≤ stripeEndAddr then cardOf h arrEndAddr else clearR
  ⟨iterL, iterR, clearL, clearR⟩

/-- Dirty-chunk walk of `scavenge_large_array_contents` (lines 455-483):
find the next dirty run with the plain clean-card search, clear it subject
to the clear limits, and push the array-element slice covered by the run.
`fuel` bounds the iterations; `iterR + 1` always suffices. -/
def arrDirtyWalk (h : Heap) (arrAddr : Nat) (L : ArrLimits) :
    Nat → Nat → ScanState → ScanState
  | 0, _, st => st
  | fuel + 1, cur, st =>
    if cur < L.iterR then
      let dl := find_first_dirty_card st.cards cur L.iterR
      let dr := find_first_clean_card st.cards dl L.iterR
      if dl = dr then st
      else
        arrDirtyWalk h arrAddr L fuel (dr + 1)
          { cards := clear_cards st.cards (max dl L.clearL) (min dr L.clearR)
            log := st.log ++ [Event.pushObjArray arrAddr (addrFor h dl) (addrFor h dr)] }
    else st

/-- `PSCardTable::scavenge_large_array_contents` (lines 409-484): derive the
limits; if the array starts in the stripe and its first card was already
cleared, push the unaligned prefix `[arr_addr, align_up(arr_addr, card))`
explicitly; then walk the dirty chunks pushing element slices. -/
def scavenge_large_array_contents (h : Heap) (arrAddr : Nat)
    (stripeAddr stripeEndAddr _spaceTop : Nat) (firstCleared : Bool)
    (st : ScanState) : ScanState :=
  let arrEndAddr := arrAddr + h.objSize arrAddr
  let L := largeArrLimits h arrAddr arrEndAddr stripeAddr stripeEndAddr firstCleared
  let st1 : ScanState :=
    if stripeAddr ≤ arrAddr ∧ firstCleared = true then
      { st with log := st.log ++
          [Event.pushObjArray arrAddr arrAddr (alignUp arrAddr h.cardSize)] }
    else st
  arrDirtyWalk h arrAddr L (L.iterR + 1) L.iterL st1

/-- End of the straddling object when the stripe's first covering object
starts before the stripe, else `cur_stripe` itself — the driver's
`first_obj_addr` after the left-limit resolution (lines 307-326). -/
def stripeFirstObjAddr (h : Heap) (curStripe : Nat) : Nat :=
  if h.objStart curStripe < curStripe
  then h.objStart curStripe + h.objSize (h.objStart curStripe) else curStripe

/-- The driver's `iter_limit_l` (lines 321-325). -/
def stripeIterL (h : Heap) (curStripe : Nat) : Nat :=
  if h.objStart curStripe < curStripe
  then cardOf h (stripeFirstObjAddr h curStripe) else cardOf h curStripe

/-- The driver's `clear_limit_l` (lines 321-325): the card shared with the
straddling object's tail may not be cleared. -/
def stripeClearL (h : Heap) (curStripe : Nat) : Nat :=
  if h.objStart curStripe < curStripe
  then cardOf h (stripeFirstObjAddr h curStripe - 1) + 1 else cardOf h curStripe

/-- Limits and large-array bookkeeping computed by the stripe driver
(lines 302-355). `none` models the paths that never reach the dirty-run
walk: no object start in the stripe, or a large object array covering the
stripe's last word that started before the stripe (the `continue`). -/
structure StripeLimits where
  iterL : Nat
  iterR : Nat
  clearL : Nat
  clearR : Nat
  firstObjAddr : Nat
  largeArr : Option Nat
  largeArrClearedFirst : Bool
deriving DecidableEq, Repr

/-- Limit computation of the stripe driver (lines 281-355), reading `cards`
only for the `large_arr_cleared_first_card` flag. -/
def computeLimits (h : Heap) (cards : Nat → CardValue)
    (curStripe stripeEnd : Nat) : Option StripeLimits :=
  if objectStartsInRange h curStripe stripeEnd then
    if h.isLargeArr (h.objStart (stripeEnd - 1)) then
      if h.objStart (stripeEnd - 1) < curStripe then none
      else some
        { iterL := stripeIterL h curStripe
          iterR := cardOf h (h.objStart (stripeEnd - 1) - 1) + 1
          clearL := stripeClearL h curStripe
          clearR := cardOf h (h.objStart (stripeEnd - 1) - 1) + 1
          firstObjAddr := stripeFirstObjAddr h curStripe
          largeArr := some (h.objStart (stripeEnd - 1))
          largeArrClearedFirst :=
            if h.objStart (stripeEnd - 1) % h.cardSize = 0 then false
            else if cards (cardOf h (h.objStart (stripeEnd - 1))) = CardValue.clean
              then false else true }
    else some
      { iterL := stripeIterL h curStripe
        iterR := cardOf h (objEndOf h (stripeEnd - 1) - 1) + 1
        clearL := stripeClearL h curStripe
        clearR := cardOf h (objEndOf h (stripeEnd - 1))
        firstObjAddr := stripeFirstObjAddr h curStripe
        largeArr := none
        largeArrClearedFirst := false }
  else none

/-- Dirty-chunk walk of the stripe driver (lines 360-400): find the next
dirty run with the OBJECT-AWARE clean-card search, clear it subject to the
clear limits, and scan whole objects in the run clipped to
`[first_obj_addr, stripe_end)` (excluding a large array that begins in the
stripe). `fuel` bounds the iterations; `iterR + 1` always suffices. -/
def stripeWalk (h : Heap) (L : StripeLimits) (stripeEnd : Nat) :
    Nat → Nat → ScanState → ScanState
  | 0, _, st => st
  | fuel + 1, cur, st =>
    if cur < L.iterR then
      let dl := find_first_dirty_card st.cards cur L.iterR
      let dr := find_first_clean_card_obj h st.cards dl L.iterR
      if dl = dr then st
      else
        stripeWalk h L stripeEnd fuel (dr + 1)
          { cards := clear_cards st.cards (max dl L.clearL) (min dr L.clearR)
            log := st.log ++ scan_objects_in_range h
              (max (h.objStart (addrFor h dl)) L.firstObjAddr)
              (min (addrFor h dr) (L.largeArr.getD stripeEnd)) }
    else st

/-- One iteration of the stripe loop of
`PSCardTable::scavenge_contents_parallel` (lines 276-406) for the stripe
`[curStripe, min(curStripe + stripeSize, spaceTop))`; the start-array cache
is modelled by direct `object_start` queries. -/
def processStripe (h : Heap) (spaceTop curStripe stripeSize : Nat)
    (st : ScanState) : ScanState :=
  let stripeEnd := min (curStripe + stripeSize) spaceTop
  if objectStartsInRange h curStripe stripeEnd then
    let st1 :=
      if h.objStart curStripe < curStripe ∧
          h.isLargeArr (h.objStart curStripe) = true then
        scavenge_large_array_contents h (h.objStart curStripe) curStripe
          stripeEnd spaceTop false st
      else st
    match computeLimits h st1.cards curStripe stripeEnd with
    | none => st1
    | some L =>
      let st2 := stripeWalk h L stripeEnd (L.iterR + 1) L.iterL st1
      match L.largeArr with
      | some arr =>
        scavenge_large_array_contents h arr curStripe stripeEnd spaceTop
          L.largeArrClearedFirst st2
      | none => st2
  else
    if h.isLargeArr (h.objStart curStripe) = true then
      scavenge_large_array_contents h (h.objStart curStripe) curStripe
        stripeEnd spaceTop false st
    else st

theorem cardOf_mono (h : Heap) {a b : Nat} (hab : a ≤ b) :
    cardOf h a ≤ cardOf h b :=
  Nat.div_le_div_right hab

theorem cardOf_le_succ_pred (h : Heap) (hcs : 0 < h.cardSize) (x : Nat) :
    cardOf h x ≤ cardOf h (x - 1) + 1 := by
  unfold cardOf
  have h1 : x ≤ (x - 1) + h.cardSize := by omega
  have h2 : x / h.cardSize ≤ (x - 1 + h.cardSize) / h.cardSize :=
    Nat.div_le_div_right h1
  rw [Nat.add_div_right _ hcs] at h2
  exact h2

theorem cardOf_pred_aligned (h : Heap) (hcs : 0 < h.cardSize) {x : Nat}
    (hal : x % h.cardSize = 0) (hx : 0 < x) :
    cardOf h (x - 1) + 1 = cardOf h x := by
  have hdvd : h.cardSize ∣ x := Nat.dvd_of_mod_eq_zero hal
  have hqc : cardOf h x * h.cardSize = x := Nat.div_mul_cancel hdvd
  have hq1 : 1 ≤ cardOf h x := by
    rcases Nat.eq_zero_or_pos (cardOf h x) with h0 | h1
    · rw [h0, Nat.zero_mul] at hqc
      omega
    · exact h1
  have hup : cardOf h (x - 1) ≤ cardOf h x - 1 := by
    rw [cardOf_le_iff h hcs]
    have e2 : cardOf h x - 1 + 1 = cardOf h x := by omega
    rw [e2]
    omega
  have hdn : cardOf h x - 1 ≤ cardOf h (x - 1) := by
    rw [le_cardOf_iff h hcs]
    have e1 : (cardOf h x - 1 + 1) * h.cardSize =
        (cardOf h x - 1) * h.cardSize + h.cardSize := Nat.succ_mul _ _
    have e2 : cardOf h x - 1 + 1 = cardOf h x := by omega
    rw [e2] at e1
    omega
  omega

theorem arrDirtyWalk_frame (h : Heap) (arrAddr : Nat) (L : ArrLimits) :
    ∀ fuel cur st c, c < L.clearL →
      (arrDirtyWalk h arrAddr L fuel cur st).cards c = st.cards c := by
  intro fuel
  induction fuel with
  | zero => intro cur st c _; rfl
  | succ fuel ih =>
    intro cur st c hc
    rw [arrDirtyWalk]
    by_cases h1 : cur < L.iterR
    case neg => rw [if_neg h1]
    case pos =>
    rw [if_pos h1]
    dsimp only
    by_cases h2 : find_first_dirty_card st.cards cur L.iterR =
        find_first_clean_card st.cards
          (find_first_dirty_card st.cards cur L.iterR) L.iterR
    · rw [if_pos h2]
    · rw [if_neg h2, ih _ _ c hc]
      dsimp only
      rw [clear_cards_eq, if_neg (by omega)]

theorem arrDirtyWalk_log (h : Heap) (arrAddr : Nat) (L : ArrLimits) :
    ∀ fuel cur st, ∃ rest,
      (arrDirtyWalk h arrAddr L fuel cur st).log = st.log ++ rest := by
  intro fuel
  induction fuel with
  | zero => intro cur st; exact ⟨[], (List.append_nil _).symm⟩
  | succ fuel ih =>
    intro cur st
    rw [arrDirtyWalk]
    by_cases h1 : cur < L.iterR
    case neg =>
      rw [if_neg h1]
      exact ⟨[], (List.append_nil _).symm⟩
    case pos =>
    rw [if_pos h1]
    dsimp only
    by_cases h2 : find_first_dirty_card st.cards cur L.iterR =
        find_first_clean_card st.cards
          (find_first_dirty_card st.cards cur L.iterR) L.iterR
    · rw [if_pos h2]
      exact ⟨[], (List.append_nil _).symm⟩
    · rw [if_neg h2]
      obtain ⟨rest, hrest⟩ := ih
        (find_first_clean_card st.cards
          (find_first_dirty_card st.cards cur L.iterR) L.iterR + 1)
        { cards := clear_cards st.cards
            (max (find_first_dirty_card st.cards cur L.iterR) L.clearL)
            (min (find_first_clean_card st.cards
              (find_first_dirty_card st.cards cur L.iterR) L.iterR) L.clearR)
          log := st.log ++ [Event.pushObjArray arrAddr
            (addrFor h (find_first_dirty_card st.cards cur L.iterR))
            (addrFor h (find_first_clean_card st.cards
              (find_first_dirty_card st.cards cur L.iterR) L.iterR))] }
      rw [hrest]
      dsimp only
      exact ⟨_, List.append_assoc _ _ _⟩

theorem stripeWalk_frame (h : Heap) (L : StripeLimits) (stripeEnd : Nat) :
    ∀ fuel cur st c, c < L.clearL →
      (stripeWalk h L stripeEnd fuel cur st).cards c = st.cards c := by
  intro fuel
  induction fuel with
  | zero => intro cur st c _; rfl
  | succ fuel ih =>
    intro cur st c hc
    rw [stripeWalk]
    by_cases h1 : cur < L.iterR
    case neg => rw [if_neg h1]
    case pos =>
    rw [if_pos h1]
    dsimp only
    by_cases h2 : find_first_dirty_card st.cards cur L.iterR =
        find_first_clean_card_obj h st.cards
          (find_first_dirty_card st.cards cur L.iterR) L.iterR
    · rw [if_pos h2]
    · rw [if_neg h2, ih _ _ c hc]
      dsimp only
      rw [clear_cards_eq, if_neg (by omega)]

theorem largeArrLimits_clearL_low (h : Heap)
    (arrAddr arrEndAddr stripeAddr stripeEndAddr : Nat) (fc : Bool)
    (hsa : stripeAddr ≤ arrAddr) :
    cardOf h (arrAddr - 1) + 1 ≤
      (largeArrLimits h arrAddr arrEndAddr stripeAddr stripeEndAddr fc).clearL := by
  unfold largeArrLimits
  dsimp only
  rw [if_pos hsa]
  cases fc
  · rw [if_neg Bool.false_ne_true]
  · rw [if_pos rfl]
    have := cardOf_mono h (a := arrAddr - 1) (b := arrAddr) (by omega)
    omega

theorem scavenge_large_array_frame_low (h : Heap)
    (arrAddr stripeAddr stripeEndAddr spaceTop : Nat) (fc : Bool)
    (st : ScanState) (c : Nat) (hsa : stripeAddr ≤ arrAddr)
    (hc : c < cardOf h (arrAddr - 1) + 1) :
    (scavenge_large_array_contents h arrAddr stripeAddr stripeEndAddr
      spaceTop fc st).cards c = st.cards c := by
  unfold scavenge_large_array_contents
  dsimp only
  rw [arrDirtyWalk_frame h arrAddr _ _ _ _ c
    (by
      have := largeArrLimits_clearL_low h arrAddr (arrAddr + h.objSize arrAddr)
        stripeAddr stripeEndAddr fc hsa
      omega)]
  by_cases hfc : stripeAddr ≤ arrAddr ∧ fc = true
  · rw [if_pos hfc]
  · rw [if_neg hfc]

theorem computeLimits_some (h : Heap) (cards : Nat → CardValue)
    (curStripe stripeEnd : Nat) (L : StripeLimits)
    (hL : computeLimits h cards curStripe stripeEnd = some L) :
    objectStartsInRange h curStripe stripeEnd = true ∧
    L.firstObjAddr = stripeFirstObjAddr h curStripe ∧
    L.iterL = stripeIterL h curStripe ∧
    L.clearL = stripeClearL h curStripe ∧
    ((∃ arr, L.largeArr = some arr ∧ arr = h.objStart (stripeEnd - 1) ∧
        curStripe ≤ arr ∧ h.isLargeArr arr = true ∧
        L.iterR = cardOf h (arr - 1) + 1 ∧ L.clearR = cardOf h (arr - 1) + 1) ∨
     (L.largeArr = none ∧ h.isLargeArr (h.objStart (stripeEnd - 1)) = false ∧
        L.iterR = cardOf h (objEndOf h (stripeEnd - 1) - 1) + 1 ∧
        L.clearR = cardOf h (objEndOf h (stripeEnd - 1)))) := by
  unfold computeLimits at hL
  by_cases hsr : objectStartsInRange h curStripe stripeEnd = true
  case neg =>
    rw [if_neg hsr] at hL
    cases hL
  case pos =>
  rw [if_pos hsr] at hL
  by_cases hla : h.isLargeArr (h.objStart (stripeEnd - 1)) = true
  case pos =>
    rw [if_pos hla] at hL
    by_cases htl : h.objStart (stripeEnd - 1) < curStripe
    case pos =>
      rw [if_pos htl] at hL
      cases hL
    case neg =>
      rw [if_neg htl] at hL
      rw [Option.some.injEq] at hL
      subst hL
      exact ⟨hsr, rfl, rfl, rfl,
        Or.inl ⟨_, rfl, rfl, by omega, hla, rfl, rfl⟩⟩
  case neg =>
    rw [if_neg hla] at hL
    rw [Option.some.injEq] at hL
    subst hL
    rw [Bool.not_eq_true] at hla
    exact ⟨hsr, rfl, rfl, rfl, Or.inr ⟨rfl, hla, rfl, rfl⟩⟩

/-- C2: whenever the object covering the stripe's last word starts before
cur_stripe, that object is exactly `object_start(cur_stripe)` (it covers the
whole stripe), no object start lies inside the stripe (so the `continue` in
the large-array guard skips no ordinary object), and
`object_starts_in_range(cur_stripe, stripe_end)` is false; in particular the
assertion `obj_addr == start_array->object_start(cur_stripe_addr)` guarding
that branch never fails. -/
theorem large_array_guard_assert (h : Heap) (wf : HeapWF h)
    (curStripe stripeEnd : Nat) (hlt : curStripe < stripeEnd)
    (htail : h.objStart (stripeEnd - 1) < curStripe) :
    h.objStart curStripe = h.objStart (stripeEnd - 1) ∧
    (∀ a, curStripe ≤ a → a < stripeEnd → h.objStart a ≠ a) ∧
    objectStartsInRange h curStripe stripeEnd = false := by
  have hcov : stripeEnd - 1 < objEndOf h (stripeEnd - 1) := wf.covers _
  have key : ∀ a, curStripe ≤ a → a < stripeEnd →
      h.objStart a = h.objStart (stripeEnd - 1) := by
    intro a h1 h2
    exact wf.start_idem (stripeEnd - 1) a (by omega) (by omega)
  refine ⟨(key curStripe (Nat.le_refl _) hlt), fun a h1 h2 heq => ?_, ?_⟩
  · have := key a h1 h2
    omega
  · rw [← Bool.not_eq_true]
    intro hcontra
    obtain ⟨a, h1, h2, h3⟩ :=
      (objectStartsInRange_iff h curStripe stripeEnd (by omega)).1 hcontra
    have := key a h1 h2
    omega

/-- Concrete heap for the C2 witness: one object `[0, 20)` covering the
whole stripe `[8, 16)`. -/
def hW2 : Heap := oneObjHeap 4 0 20 (fun _ => false)

theorem large_array_guard_assert_witness :
    hW2.objStart 8 = hW2.objStart 15 :=
  (large_array_guard_assert hW2 (oneObjHeap_wf 4 0 20 _ (by omega) (by omega))
    8 16 (by omega) (by decide)).1

theorem largeArrLimits_left_adjust (h : Heap)
    (arrAddr arrEndAddr stripeAddr stripeEndAddr : Nat)
    (hsa : stripeAddr ≤ arrAddr) :
    (largeArrLimits h arrAddr arrEndAddr stripeAddr stripeEndAddr true).iterL =
      cardOf h arrAddr + 1 ∧
    (largeArrLimits h arrAddr arrEndAddr stripeAddr stripeEndAddr true).clearL =
      cardOf h arrAddr + 1 ∧
    (largeArrLimits h arrAddr arrEndAddr stripeAddr stripeEndAddr false).iterL =
      cardOf h arrAddr := by
  refine ⟨?_, ?_, ?_⟩
  · unfold largeArrLimits
    dsimp only
    rw [if_pos hsa, if_pos rfl]
  · unfold largeArrLimits
    dsimp only
    rw [if_pos hsa, if_pos rfl]
  · unfold largeArrLimits
    dsimp only
    rw [if_pos hsa, if_neg Bool.false_ne_true]

/-- C5: for a large array starting in the stripe (`stripe_addr ≤ arr_addr`)
with `first_card_already_cleared` true, `scavenge_large_array_contents`
sets `iter_limit_l = clear_limit_l = byte_for(arr_addr) + 1`, pushes exactly
the prefix elements `[arr_addr, align_up(arr_addr, card_size))` via
`push_objArray_contents` as its first push, and never touches any card up to
and including `byte_for(arr_addr)` — the first card is neither re-examined
nor re-cleared. With the flag false the first card is iterated normally:
`iter_limit_l = byte_for(arr_addr)`. -/
theorem scavenge_large_array_first_card (h : Heap)
    (arrAddr stripeAddr stripeEndAddr spaceTop : Nat) (st : ScanState)
    (hsa : stripeAddr ≤ arrAddr) :
    ((largeArrLimits h arrAddr (arrAddr + h.objSize arrAddr) stripeAddr
        stripeEndAddr true).iterL = cardOf h arrAddr + 1 ∧
      (largeArrLimits h arrAddr (arrAddr + h.objSize arrAddr) stripeAddr
        stripeEndAddr true).clearL = cardOf h arrAddr + 1) ∧
    (∃ rest, (scavenge_large_array_contents h arrAddr stripeAddr stripeEndAddr
        spaceTop true st).log =
      st.log ++ [Event.pushObjArray arrAddr arrAddr (alignUp arrAddr h.cardSize)]
        ++ rest) ∧
    (∀ c, c ≤ cardOf h arrAddr →
      (scavenge_large_array_contents h arrAddr stripeAddr stripeEndAddr
        spaceTop true st).cards c = st.cards c) ∧
    (largeArrLimits h arrAddr (arrAddr + h.objSize arrAddr) stripeAddr
        stripeEndAddr false).iterL = cardOf h arrAddr := by
  obtain ⟨g1, g2, g3⟩ := largeArrLimits_left_adjust h arrAddr
    (arrAddr + h.objSize arrAddr) stripeAddr stripeEndAddr hsa
  refine ⟨⟨g1, g2⟩, ?_, ?_, g3⟩
  · unfold scavenge_large_array_contents
    dsimp only
    rw [if_pos ⟨hsa, rfl⟩]
    obtain ⟨rest, hrest⟩ := arrDirtyWalk_log h arrAddr
      (largeArrLimits h arrAddr (arrAddr + h.objSize arrAddr) stripeAddr
        stripeEndAddr true)
      ((largeArrLimits h arrAddr (arrAddr + h.objSize arrAddr) stripeAddr
        stripeEndAddr true).iterR + 1)
      (largeArrLimits h arrAddr (arrAddr + h.objSize arrAddr) stripeAddr
        stripeEndAddr true).iterL
      { st with log := st.log ++
          [Event.pushObjArray arrAddr arrAddr (alignUp arrAddr h.cardSize)] }
    exact ⟨rest, hrest⟩
  · intro c hcc
    have hc2 : c < (largeArrLimits h arrAddr (arrAddr + h.objSize arrAddr)
        stripeAddr stripeEndAddr true).clearL := by
      rw [g2]
      omega
    unfold scavenge_large_array_contents
    dsimp only
    rw [arrDirtyWalk_frame _ _ _ _ _ _ c hc2]
    rw [if_pos ⟨hsa, rfl⟩]

/-- Concrete heap for the C5 witness: card size 4, large object array
`[2, 30)` (start not card-aligned). -/
def hC5 : Heap := oneObjHeap 4 2 30 (fun a => a == 2)

theorem scavenge_large_array_first_card_witness :
    (largeArrLimits hC5 2 (2 + hC5.objSize 2) 0 8 true).iterL =
      cardOf hC5 2 + 1 ∧
    (largeArrLimits hC5 2 (2 + hC5.objSize 2) 0 8 true).clearL =
      cardOf hC5 2 + 1 :=
  (scavenge_large_array_first_card hC5 2 0 8 16
    { cards := fun _ => CardValue.dirty, log := [] } (by omega)).1

/-- C4 (amended): in every iteration of the stripe driver that reaches the
dirty-run walk, the asserted outer inequalities
`iter_limit_l ≤ clear_limit_l` and `clear_limit_r ≤ iter_limit_r` hold; the
middle inequality `clear_limit_l ≤ clear_limit_r` also holds whenever
`stripe_end` is card-aligned. It can fail only for a last stripe ending at a
non-card-aligned `space_top` whose straddling first object ends in
`space_top`'s card (see the counterexample); the clear range is then empty. -/
theorem stripe_limits_chain (h : Heap) (wf : HeapWF h)
    (cards : Nat → CardValue) (curStripe stripeEnd : Nat)
    (hcse : curStripe < stripeEnd) (L : StripeLimits)
    (hL : computeLimits h cards curStripe stripeEnd = some L) :
    L.iterL ≤ L.clearL ∧ L.clearR ≤ L.iterR ∧
    (stripeEnd % h.cardSize = 0 → L.clearL ≤ L.clearR) := by
  have hcs := wf.cs_pos
  obtain ⟨hsr, hfo, hil, hcl, hright⟩ :=
    computeLimits_some h cards curStripe stripeEnd L hL
  have hfirst_le : ∀ a, curStripe ≤ a → h.objStart a = a →
      stripeFirstObjAddr h curStripe ≤ a := by
    intro a h1 h2
    unfold stripeFirstObjAddr
    by_cases hstr : h.objStart curStripe < curStripe
    · rw [if_pos hstr]
      by_contra hlt
      push_neg at hlt
      have := wf.start_idem curStripe a (by omega)
        (by unfold objEndOf; omega)
      omega
    · rw [if_neg hstr]
      exact h1
  have hf_lt : stripeFirstObjAddr h curStripe < stripeEnd := by
    obtain ⟨a, h1, h2, h3⟩ :=
      (objectStartsInRange_iff h curStripe stripeEnd (by omega)).1 hsr
    have := hfirst_le a h1 h3
    omega
  refine ⟨?_, ?_, ?_⟩
  · rw [hil, hcl]
    unfold stripeIterL stripeClearL
    by_cases hstr : h.objStart curStripe < curStripe
    · rw [if_pos hstr, if_pos hstr]
      exact cardOf_le_succ_pred h hcs _
    · rw [if_neg hstr, if_neg hstr]
  · rcases hright with ⟨arr, _, _, _, _, hiR, hcR⟩ | ⟨_, _, hiR, hcR⟩
    · rw [hiR, hcR]
    · rw [hiR, hcR]
      exact cardOf_le_succ_pred h hcs _
  · intro halign
    rw [hcl]
    have htailend : stripeEnd ≤ objEndOf h (stripeEnd - 1) := by
      have := wf.covers (stripeEnd - 1)
      omega
    rcases hright with ⟨arr, _, harr_eq, harr_ge, _, hiR, hcR⟩ | ⟨_, _, hiR, hcR⟩
    · rw [hcR]
      have harr_start : h.objStart arr = arr := by
        rw [harr_eq]
        exact wf.objStart_self _
      have hfa : stripeFirstObjAddr h curStripe ≤ arr :=
        hfirst_le arr harr_ge harr_start
      unfold stripeClearL
      by_cases hstr : h.objStart curStripe < curStripe
      · rw [if_pos hstr]
        have := cardOf_mono h
          (a := stripeFirstObjAddr h curStripe - 1) (b := arr - 1) (by omega)
        omega
      · rw [if_neg hstr]
        have h1 := cardOf_mono h (a := curStripe) (b := arr) harr_ge
        have h2 := cardOf_le_succ_pred h hcs arr
        omega
    · rw [hcR]
      unfold stripeClearL
      by_cases hstr : h.objStart curStripe < curStripe
      · rw [if_pos hstr]
        have hm1 := cardOf_mono h
          (a := stripeFirstObjAddr h curStripe - 1) (b := stripeEnd - 1)
          (by omega)
        have hal := cardOf_pred_aligned h hcs halign (by omega)
        have hm2 := cardOf_mono h
          (a := stripeEnd) (b := objEndOf h (stripeEnd - 1)) htailend
        omega
      · rw [if_neg hstr]
        have := cardOf_mono h
          (a := curStripe) (b := objEndOf h (stripeEnd - 1)) (by omega)
        omega

/-- Concrete heap for the C4 counterexample: card size 4, one object
`[0, 13)` straddling from the previous stripe into the last card of the
(last) stripe `[8, 14)`, a final single-word object `[13, 14)`;
`space_top = 14` is not card-aligned. -/
def hC4 : Heap := oneObjHeap 4 0 13 (fun _ => false)

/-- C4 counterexample: at a last stripe ending at non-card-aligned
`space_top = 14`, with the straddling first object ending at word 13 in
`space_top`'s card, the stripe driver reaches the dirty-run walk with
`clear_limit_l = 4 > clear_limit_r = 3`: the claimed chain
`iter_limit_l ≤ clear_limit_l ≤ clear_limit_r ≤ iter_limit_r` fails in the
middle (the outer inequalities still hold: 3 ≤ 4 and 3 ≤ 4). -/
theorem stripe_limits_chain_counterexample :
    computeLimits hC4 (fun _ => CardValue.clean) 8 14 =
      some { iterL := 3, iterR := 4, clearL := 4, clearR := 3,
             firstObjAddr := 13, largeArr := none,
             largeArrClearedFirst := false } ∧
    HeapWF hC4 ∧ ¬ (4 ≤ 3) :=
  ⟨by decide, oneObjHeap_wf 4 0 13 _ (by omega) (by omega), by omega⟩

/-- Stripe limits computed at the C4 witness instance. -/
def limitsW4 : StripeLimits :=
  { iterL := 0, iterR := 2, clearL := 0, clearR := 2,
    firstObjAddr := 0, largeArr := none, largeArrClearedFirst := false }

theorem stripe_limits_chain_witness :
    limitsW4.iterL ≤ limitsW4.clearL ∧ limitsW4.clearR ≤ limitsW4.iterR ∧
    (2 % unitHeap.cardSize = 0 → limitsW4.clearL ≤ limitsW4.clearR) :=
  stripe_limits_chain unitHeap unitHeap_wf (fun _ => CardValue.clean) 0 2
    (by omega) limitsW4 (by decide)

/-- C3 (amended): for a stripe whose first covering object starts before
cur_stripe and is NOT a large object array, the worker processing that
stripe never writes any card below `byte_for(first_obj_addr - 1) + 1`
(`first_obj_addr` being the end of the straddling object); in particular the
card shared between the straddling object's tail and the stripe's first own
object is never cleared by this stripe's worker. When the straddling object
IS a large object array, the cards covered by its elements inside the stripe
may legitimately be cleared by this worker (see the counterexample). -/
theorem stripe_preserves_cards_below_first_obj (h : Heap) (wf : HeapWF h)
    (spaceTop curStripe stripeSize : Nat) (st : ScanState) (c : Nat)
    (hstr : h.objStart curStripe < curStripe)
    (hnl : h.isLargeArr (h.objStart curStripe) = false)
    (hc : c < cardOf h
      (h.objStart curStripe + h.objSize (h.objStart curStripe) - 1) + 1) :
    (processStripe h spaceTop curStripe stripeSize st).cards c = st.cards c := by
  unfold processStripe
  dsimp only
  set SE := min (curStripe + stripeSize) spaceTop with hSE
  by_cases hsr : objectStartsInRange h curStripe SE = true
  case neg =>
    rw [if_neg hsr, if_neg (by rw [hnl]; exact Bool.false_ne_true)]
  case pos =>
  rw [if_pos hsr]
  have hcond : ¬ (h.objStart curStripe < curStripe ∧
      h.isLargeArr (h.objStart curStripe) = true) := by
    intro hx
    rw [hnl] at hx
    exact Bool.false_ne_true hx.2
  rw [if_neg hcond]
  rcases hLe : computeLimits h st.cards curStripe SE with _ | L
  · rfl
  · dsimp only
    obtain ⟨_, _, _, hclv, hright⟩ :=
      computeLimits_some h st.cards curStripe SE L hLe
    have hclval : L.clearL = cardOf h
        (h.objStart curStripe + h.objSize (h.objStart curStripe) - 1) + 1 := by
      rw [hclv]
      unfold stripeClearL stripeFirstObjAddr
      rw [if_pos hstr, if_pos hstr]
    have hwalk : ∀ st' : ScanState,
        (stripeWalk h L SE (L.iterR + 1) L.iterL st').cards c = st'.cards c :=
      fun st' => stripeWalk_frame h L SE _ _ st' c (by rw [hclval]; exact hc)
    rcases hright with ⟨arr, hsome, harr_eq, harr_ge, _, _, _⟩ | ⟨hnone, _, _, _⟩
    · rw [hsome]
      dsimp only
      have harr_start : h.objStart arr = arr := by
        rw [harr_eq]
        exact wf.objStart_self _
      have hcovcur : curStripe < h.objStart curStripe +
          h.objSize (h.objStart curStripe) := by
        have := wf.covers curStripe
        unfold objEndOf at this
        omega
      have hfa : h.objStart curStripe + h.objSize (h.objStart curStripe) ≤ arr := by
        by_contra hlt
        push_neg at hlt
        have := wf.start_idem curStripe arr (by omega)
          (by unfold objEndOf; omega)
        omega
      have hbound : c < cardOf h (arr - 1) + 1 := by
        have := cardOf_mono h
          (a := h.objStart curStripe + h.objSize (h.objStart curStripe) - 1)
          (b := arr - 1) (by omega)
        omega
      rw [scavenge_large_array_frame_low h arr curStripe SE spaceTop
        L.largeArrClearedFirst _ c harr_ge hbound]
      exact hwalk st
    · rw [hnone]
      dsimp only
      exact hwalk st

/-- Concrete heap for the C3 counterexample: card size 4, a large object
array `[0, 14)` straddling from the previous stripe into stripe `[8, 16)`,
single-word objects after it. -/
def hC3 : Heap := oneObjHeap 4 0 14 (fun a => a == 0)

/-- Card table for the C3 counterexample: card 2 dirty, all others clean. -/
def cardsC3 : Nat → CardValue := fun cd =>
  if cd = 2 then CardValue.dirty else CardValue.clean

/-- Initial state for the C3 counterexample. -/
def stC3 : ScanState := { cards := cardsC3, log := [] }

/-- C3 counterexample: when the straddling first object is a large object
array (here `[0, 14)` with the stripe `[8, 16)`), the worker DOES clear a
card below `byte_for(first_obj_addr - 1) + 1 = 4`: dirty card 2, which holds
only array elements, is cleared by the stripe's
`scavenge_large_array_contents` call — refuting the claim as stated for
large-array straddlers. -/
theorem stripe_preserves_counterexample :
    (processStripe hC3 16 8 8 stC3).cards 2 = CardValue.clean ∧
    stC3.cards 2 = CardValue.dirty ∧
    hC3.objStart 8 < 8 ∧
    hC3.isLargeArr (hC3.objStart 8) = true ∧
    2 < cardOf hC3 (hC3.objStart 8 + hC3.objSize (hC3.objStart 8) - 1) + 1 ∧
    HeapWF hC3 :=
  ⟨by decide, by decide, by decide, by decide, by decide,
    oneObjHeap_wf 4 0 14 _ (by omega) (by omega)⟩

/-- Initial state for the C3 witness. -/
def stW3 : ScanState := { cards := fun _ => CardValue.dirty, log := [] }

theorem stripe_preserves_cards_below_first_obj_witness :
    (processStripe hC4 14 8 8 stW3).cards 0 = stW3.cards 0 :=
  stripe_preserves_cards_below_first_obj hC4
    (oneObjHeap_wf 4 0 13 _ (by omega) (by omega)) 14 8 8 stW3 0
    (by decide) (by decide) (by decide)
